import Mathlib

/-!
A shallow embedding of the Monte Carlo tree search core in
`src/AlphaGo/mcts.py`, together with theorems settling the frozen claims
about it.

Modelling conventions:

* Scalar quantities (prior probabilities, exploration bonuses, Q-values,
  accumulated rewards, the outputs of the value / rollout functions) are
  modelled as exact rationals `ℚ`, the spec's real-arithmetic reading of
  the Python numbers.
* A `TreeNode`'s `children` dictionary is modelled as an association list
  in insertion order; the spec fixes insertion order as the deterministic
  iteration order of the dictionary.
* Python exceptions (IndexError, KeyError, ZeroDivisionError) are
  modelled by `Option`: a raised exception is `none`.
* The mutable tree is threaded functionally: an operation that mutates a
  node returns the updated node; the `visited` list built by the in-tree
  phase (node references along the selection path, deepest first) is
  represented by the root-to-leaf list of selected actions, and the
  subsequent in-place updates of the visited nodes become path-indexed
  updates of the tree.
* `state.copy()` of the opaque game state is value copying: states are
  immutable values `σ` here, and `state.do_move(a)` is an explicit
  function `σ → α → σ` supplied by the environment.
* The while loop of `DFS_in_tree_phase` is modelled with an explicit fuel
  parameter; the theorems quantify over sufficient fuel.
-/

namespace AlphaGo

/-- Python module constant `LAMBDA = 0.5` in `mcts.py`. -/
def LAMBDA : ℚ := 1 / 2

/-- Python module constant `THRESHOLD = 50` in `mcts.py`. -/
def THRESHOLD : ℕ := 50

/-- `TreeNode` of `mcts.py`: visit count, exploration bonus `u_value`,
action value `Q_value`, the two reward accumulators, and the children
dictionary (action keys of type `α`), in insertion order. -/
inductive TreeNode (α : Type) : Type where
  | mk (nVisits : ℕ) (u_value : ℚ) (Q_value : ℚ)
      (total_value_rewards : ℚ) (total_rollout_rewards : ℚ)
      (children : List (α × TreeNode α)) : TreeNode α

namespace TreeNode

variable {α : Type}

def nVisits : TreeNode α → ℕ
  | .mk n _ _ _ _ _ => n

def u_value : TreeNode α → ℚ
  | .mk _ u _ _ _ _ => u

def Q_value : TreeNode α → ℚ
  | .mk _ _ q _ _ _ => q

def total_value_rewards : TreeNode α → ℚ
  | .mk _ _ _ v _ _ => v

def total_rollout_rewards : TreeNode α → ℚ
  | .mk _ _ _ _ r _ => r

def children : TreeNode α → List (α × TreeNode α)
  | .mk _ _ _ _ _ c => c

/-- `TreeNode.__init__`: all statistics zero, no children. -/
def new : TreeNode α := .mk 0 0 0 0 0 []

def setU : TreeNode α → ℚ → TreeNode α
  | .mk n _ q v r c, u => .mk n u q v r c

def setQ : TreeNode α → ℚ → TreeNode α
  | .mk n u _ v r c, q => .mk n u q v r c

def setChildren : TreeNode α → List (α × TreeNode α) → TreeNode α
  | .mk n u q v r _, c => .mk n u q v r c

/-- `TreeNode.updateVisits`: `self.nVisits += 1`. -/
def updateVisits : TreeNode α → TreeNode α
  | .mk n u q v r c => .mk (n + 1) u q v r c

/-- `TreeNode.update_value_rewards`: `self.total_value_rewards += value`. -/
def update_value_rewards : TreeNode α → ℚ → TreeNode α
  | .mk n u q v r c, x => .mk n u q (v + x) r c

/-- `TreeNode.update_rollout_rewards`: `self.total_rollout_rewards += value`. -/
def update_rollout_rewards : TreeNode α → ℚ → TreeNode α
  | .mk n u q v r c, x => .mk n u q v (r + x) c

/-- `TreeNode.isLeaf`: `self.children == {}`. -/
def isLeaf (t : TreeNode α) : Bool := t.children.isEmpty

/-- `TreeNode.toValue`: `self.Q_value + self.u_value`. -/
def toValue (t : TreeNode α) : ℚ := t.Q_value + t.u_value

@[simp] theorem nVisits_mk (n u q v r c) :
    (TreeNode.mk n u q v r c : TreeNode α).nVisits = n := rfl

@[simp] theorem u_value_mk (n u q v r c) :
    (TreeNode.mk n u q v r c : TreeNode α).u_value = u := rfl

@[simp] theorem Q_value_mk (n u q v r c) :
    (TreeNode.mk n u q v r c : TreeNode α).Q_value = q := rfl

@[simp] theorem total_value_rewards_mk (n u q v r c) :
    (TreeNode.mk n u q v r c : TreeNode α).total_value_rewards = v := rfl

@[simp] theorem total_rollout_rewards_mk (n u q v r c) :
    (TreeNode.mk n u q v r c : TreeNode α).total_rollout_rewards = r := rfl

@[simp] theorem children_mk (n u q v r c) :
    (TreeNode.mk n u q v r c : TreeNode α).children = c := rfl

end TreeNode

section Dict

variable {α : Type} [DecidableEq α]

/-- Python dictionary assignment `d[a] = node`: replace the value at an
existing key in place, otherwise append the binding at the end. -/
def dictInsert : List (α × TreeNode α) → α → TreeNode α → List (α × TreeNode α)
  | [], a, node => [(a, node)]
  | (k, c) :: rest, a, node =>
    if k = a then (k, node) :: rest else (k, c) :: dictInsert rest a node

/-- Python dictionary lookup `d[a]` (first binding of the key);
`none` models a KeyError. -/
def findChild : List (α × TreeNode α) → α → Option (TreeNode α)
  | [], _ => none
  | (k, c) :: rest, a => if k = a then some c else findChild rest a

/-- In-place mutation of the node stored at key `a` (the aliasing of a
Python child reference back into the dictionary). -/
def replaceChild : List (α × TreeNode α) → α → TreeNode α → List (α × TreeNode α)
  | [], _, _ => []
  | (k, c) :: rest, a, node =>
    if k = a then (k, node) :: rest else (k, c) :: replaceChild rest a node

end Dict

namespace TreeNode

variable {α : Type} [DecidableEq α]

/-- `TreeNode.expandChildren`:
`for action in actions: self.children[action[0]] = TreeNode()`. -/
def expandChildren (t : TreeNode α) (actions : List (α × ℚ)) : TreeNode α :=
  t.setChildren
    (actions.foldl (fun cs ap => dictInsert cs ap.1 TreeNode.new) t.children)

/-- The scan of `TreeNode.selection` and of `MCTS.get_move`: walk the
items, keeping the first entry whose score strictly exceeds the maximum
seen so far.  `score` is `toValue` for selection and `nVisits` for
`get_move`. -/
def argLoop {β : Type} [LinearOrder β] (score : TreeNode α → β) :
    List (α × TreeNode α) → TreeNode α → α → β → TreeNode α × α
  | [], best, bestAct, _ => (best, bestAct)
  | (k, c) :: rest, best, bestAct, maxV =>
    if maxV < score c then argLoop score rest c k (score c)
    else argLoop score rest best bestAct maxV

/-- `TreeNode.selection`: start from the first child, scan all items,
keep the first child of maximal `toValue`.  `none` models the IndexError
raised on a childless node. -/
def selection (t : TreeNode α) : Option (TreeNode α × α) :=
  match t.children with
  | [] => none
  | (k0, c0) :: _ => some (argLoop toValue t.children c0 k0 c0.toValue)

/-- `TreeNode.backupQ_value`: sum of the children's current `Q_value`
divided by the number of children. -/
def backupQ_value (t : TreeNode α) : ℚ :=
  (t.children.map fun p => p.2.Q_value).sum / (t.children.length : ℚ)

/-- `TreeNode.updateQ_value`.  On a leaf the two reward accumulators are
averaged with weight `LAMBDA`; `none` models the ZeroDivisionError that
the division raises on a zero-visit leaf.  On an internal node the
`Q_value` becomes `backupQ_value`. -/
def updateQ_value (t : TreeNode α) : Option (TreeNode α) :=
  if t.isLeaf then
    if t.nVisits = 0 then none
    else
      some (t.setQ ((1 - LAMBDA) * (t.total_value_rewards / (t.nVisits : ℚ)) +
        LAMBDA * (t.total_rollout_rewards / (t.nVisits : ℚ))))
  else some (t.setQ t.backupQ_value)

/-- One assignment `self.children[a].u_value = p / (1 + self.children[a].nVisits)`
of `TreeNode.updateU_value`; `none` models the KeyError. -/
def setUValue : List (α × TreeNode α) → α → ℚ → Option (List (α × TreeNode α))
  | [], _, _ => none
  | (k, c) :: rest, a, p =>
    if k = a then some ((k, c.setU (p / (1 + (c.nVisits : ℚ)))) :: rest)
    else
      match setUValue rest a p with
      | none => none
      | some rest1 => some ((k, c) :: rest1)

/-- The loop of `TreeNode.updateU_value` over the first
`len(self.children)` entries of `actions`. -/
def updateU_go : List (α × TreeNode α) → List (α × ℚ) → Option (List (α × TreeNode α))
  | cs, [] => some cs
  | cs, (a, p) :: rest =>
    match setUValue cs a p with
    | none => none
    | some cs1 => updateU_go cs1 rest

/-- `TreeNode.updateU_value`: for `index in range(0, len(self.children))`
set `children[actions[index][0]].u_value` to
`actions[index][1] / (1 + children[actions[index][0]].nVisits)`.
`none` models the IndexError when `actions` is shorter than the children
dictionary, and the KeyError when a processed action is not a child key. -/
def updateU_value (t : TreeNode α) (actions : List (α × ℚ)) : Option (TreeNode α) :=
  if actions.length < t.children.length then none
  else
    match updateU_go t.children (actions.take t.children.length) with
    | none => none
    | some cs => some (t.setChildren cs)

end TreeNode

section Paths

variable {α : Type} [DecidableEq α]

/-- The node reached from `t` by following `path` through the children
dictionaries.  The visited node of depth `k` of the in-tree phase is
`getAtPath root (path.take k)`. -/
def getAtPath : TreeNode α → List α → Option (TreeNode α)
  | t, [] => some t
  | t, a :: rest =>
    match findChild t.children a with
    | none => none
    | some c => getAtPath c rest

/-- In-place mutation of the node at `path` (the Python update of a node
reached through child references). -/
def modifyAtPath : TreeNode α → List α → (TreeNode α → TreeNode α) → Option (TreeNode α)
  | t, [], f => some (f t)
  | t, a :: rest, f =>
    match findChild t.children a with
    | none => none
    | some c =>
      match modifyAtPath c rest f with
      | none => none
      | some c1 => some (t.setChildren (replaceChild t.children a c1))

/-- `MCTS.backup`: `for treenode in visited: treenode.updateQ_value()`.
The visited list holds the nodes along `path` (depths `1..path.length`,
the root itself is not in it), deepest first, so `updateQ_value` runs on
the deepest node first and each node reads its children's already
refreshed values. -/
def backup : TreeNode α → List α → Option (TreeNode α)
  | t, [] => some t
  | t, a :: rest =>
    match findChild t.children a with
    | none => none
    | some c =>
      match backup c rest with
      | none => none
      | some c1 =>
        match c1.updateQ_value with
        | none => none
        | some c2 => some (t.setChildren (replaceChild t.children a c2))

end Paths

/-- `MCTS.__init__`: the engine owns the current real state, the root
node and the three externally supplied strategy functions. -/
structure MCTS (σ α : Type) where
  state : σ
  root : TreeNode α
  value_network : σ → ℚ
  policy_network : σ → List (α × ℚ)
  rollout_policy : σ → ℚ

namespace MCTS

variable {σ α : Type} [DecidableEq α]

def setRoot (m : MCTS σ α) (t : TreeNode α) : MCTS σ α :=
  MCTS.mk m.state t m.value_network m.policy_network m.rollout_policy

end MCTS

section InTree

variable {σ α : Type} [DecidableEq α]

/-- The `while(L > 0)` loop of `MCTS.DFS_in_tree_phase`, fuel-indexed
(`none` on fuel exhaustion and on a raised exception in the body).  Each
iteration queries the policy, expands a leaf, refreshes the exploration
bonuses, selects the best child, applies the move to the hypothetical
state, increments the child's visit count and prepends it to the visited
list; then `L -= 1`, and if `L == 0` and the just-visited node has more
than `THRESHOLD` visits, `L += 2`.  Returns the updated subtree root,
the final hypothetical state and the root-to-leaf action path (the
visited list is the list of nodes along this path, deepest first). -/
def inTreeLoop (do_move : σ → α → σ) (policy : σ → List (α × ℚ)) :
    ℕ → ℤ → TreeNode α → σ → Option (TreeNode α × σ × List α)
  | 0, L, t, s => if L ≤ 0 then some (t, s, []) else none
  | fuel + 1, L, t, s =>
    if L ≤ 0 then some (t, s, [])
    else
      let actions := policy s
      let t1 := if t.isLeaf then t.expandChildren actions else t
      match t1.updateU_value actions with
      | none => none
      | some t2 =>
        match t2.selection with
        | none => none
        | some (child, action) =>
          let s1 := do_move s action
          let child1 := child.updateVisits
          let L1 := L - 1
          let L2 := if L1 = 0 ∧ THRESHOLD < child1.nVisits then L1 + 2 else L1
          match inTreeLoop do_move policy fuel L2 child1 s1 with
          | none => none
          | some (child2, s2, path) =>
            some (t2.setChildren (replaceChild t2.children action child2),
              s2, action :: path)

end InTree

namespace MCTS

variable {σ α : Type} [DecidableEq α]

/-- `MCTS.DFS_in_tree_phase`: run the in-tree loop from the root on a
copy of the engine's real state (value copying here). -/
def DFS_in_tree_phase (m : MCTS σ α) (do_move : σ → α → σ) (fuel : ℕ) (L : ℤ) :
    Option (TreeNode α × σ × List α) :=
  inTreeLoop do_move m.policy_network fuel L m.root m.state

/-- `MCTS.value_evaluation`: evaluate the leaf state with the value
network, add the result to `visited[0]`'s value accumulator (IndexError,
i.e. `none`, if the visited list is empty) and back up the Q-values. -/
def value_evaluation (m : MCTS σ α) (root : TreeNode α) (state : σ) (path : List α) :
    Option (TreeNode α) :=
  match path with
  | [] => none
  | _ :: _ =>
    match modifyAtPath root path
        (fun node => node.update_value_rewards (m.value_network state)) with
    | none => none
    | some t1 => backup t1 path

/-- `MCTS.rollout_evaluation`: same backward pass with the rollout
policy's outcome added to `visited[0]`'s rollout accumulator. -/
def rollout_evaluation (m : MCTS σ α) (root : TreeNode α) (state : σ) (path : List α) :
    Option (TreeNode α) :=
  match path with
  | [] => none
  | _ :: _ =>
    match modifyAtPath root path
        (fun node => node.update_rollout_rewards (m.rollout_policy state)) with
    | none => none
    | some t1 => backup t1 path

/-- `MCTS.simulation`: `nSimulation` times, in-tree phase then the two
evaluation passes.  Only the tree is updated between iterations; the
engine's real `state` is only copied, never written. -/
def simulation (m : MCTS σ α) (do_move : σ → α → σ) (fuel : ℕ) :
    ℕ → ℤ → Option (MCTS σ α)
  | 0, _ => some m
  | n + 1, L =>
    match m.DFS_in_tree_phase do_move fuel L with
    | none => none
    | some (root1, state1, path) =>
      match m.value_evaluation root1 state1 path with
      | none => none
      | some root2 =>
        match m.rollout_evaluation root2 state1 path with
        | none => none
        | some root3 => (m.setRoot root3).simulation do_move fuel n L

/-- `MCTS.DFS_rollout_phase`: the Python body is `pass`, so the call
performs no mutation and returns the value `None`; `none` here is that
returned `None` value (a normal return, not a raised error). -/
def DFS_rollout_phase (_m : MCTS σ α) (_state : σ) : Option ℚ := none

/-- `MCTS.get_move`: scan the root's children keeping the first child of
maximal `nVisits`, return its action.  `none` models the IndexError on a
childless root. -/
def get_move (m : MCTS σ α) : Option α :=
  match m.root.children with
  | [] => none
  | (k0, c0) :: _ =>
    some (TreeNode.argLoop TreeNode.nVisits m.root.children c0 k0 c0.nVisits).2

end MCTS

/-- `class ParallelMCTS(MCTS): pass`: a subtype that adds and overrides
nothing, so every operation is the inherited `MCTS` one. -/
abbrev ParallelMCTS (σ α : Type) : Type := MCTS σ α

namespace ParallelMCTS

variable {σ α : Type} [DecidableEq α]

/-- `get_move` inherited unchanged from `MCTS`. -/
def get_move (m : ParallelMCTS σ α) : Option α := MCTS.get_move m

/-- `simulation` inherited unchanged from `MCTS`. -/
def simulation (m : ParallelMCTS σ α) (do_move : σ → α → σ) (fuel : ℕ)
    (n : ℕ) (L : ℤ) : Option (MCTS σ α) :=
  MCTS.simulation m do_move fuel n L

end ParallelMCTS

/-! ## Auxiliary definitions used by the verification -/

section AuxDefs

variable {α : Type} [DecidableEq α]

/-- The children-building fold of `expandChildren`. -/
def expandFold (cs : List (α × TreeNode α)) (actions : List (α × ℚ)) :
    List (α × TreeNode α) :=
  actions.foldl (fun cs1 ap => dictInsert cs1 ap.1 TreeNode.new) cs

end AuxDefs

/-- All fields except the exploration bonus coincide. -/
def sameExceptU {α : Type} (a b : TreeNode α) : Prop :=
  b.nVisits = a.nVisits ∧ b.Q_value = a.Q_value ∧
    b.total_value_rewards = a.total_value_rewards ∧
    b.total_rollout_rewards = a.total_rollout_rewards ∧
    b.children = a.children

/-- Children-list entries related by `updateU_value`: same key, same node
up to the exploration bonus. -/
def entryR {α : Type} (q q' : α × TreeNode α) : Prop :=
  q'.1 = q.1 ∧ sameExceptU q.2 q'.2

/-- A child as created by `expandChildren` in the current simulation and
not yet visited: zero statistics (up to the exploration bonus) and no
children of its own. -/
def UnvisitedLeaf {α : Type} (c : TreeNode α) : Prop :=
  c.nVisits = 0 ∧ c.total_value_rewards = 0 ∧ c.total_rollout_rewards = 0 ∧
    c.children = []

/-- One-action policy over the trivial game state, used for the concrete
scenarios. -/
def unitPolicy : Unit → List (ℕ × ℚ) := fun _ => [(0, 1)]

/-- Move application on the trivial game state. -/
def unitMove : Unit → ℕ → Unit := fun _ _ => ()

/-- A root with a single leaf child that has already been visited
`THRESHOLD` times in earlier simulations. -/
def seedRoot : TreeNode ℕ := TreeNode.mk 0 0 0 0 0 [(0, TreeNode.mk 50 0 0 0 0 [])]

/-- Engine whose root is `seedRoot`. -/
def seedEngine : MCTS Unit ℕ := MCTS.mk () seedRoot (fun _ => 1 / 2) unitPolicy (fun _ => 1)

/-- Engine on a fresh tree, with value function constantly `1/2` and
rollout function constantly `1`. -/
def freshEngine : MCTS Unit ℕ := MCTS.mk () TreeNode.new (fun _ => 1 / 2) unitPolicy (fun _ => 1)

/-! ## Basic lemmas about the node setters and the children dictionary -/

namespace TreeNode

variable {α : Type}

@[simp] theorem nVisits_setU (t : TreeNode α) (x : ℚ) : (t.setU x).nVisits = t.nVisits := by
  cases t; rfl

@[simp] theorem Q_value_setU (t : TreeNode α) (x : ℚ) : (t.setU x).Q_value = t.Q_value := by
  cases t; rfl

@[simp] theorem u_value_setU (t : TreeNode α) (x : ℚ) : (t.setU x).u_value = x := by
  cases t; rfl

@[simp] theorem total_value_rewards_setU (t : TreeNode α) (x : ℚ) :
    (t.setU x).total_value_rewards = t.total_value_rewards := by
  cases t; rfl

@[simp] theorem total_rollout_rewards_setU (t : TreeNode α) (x : ℚ) :
    (t.setU x).total_rollout_rewards = t.total_rollout_rewards := by
  cases t; rfl

@[simp] theorem children_setU (t : TreeNode α) (x : ℚ) : (t.setU x).children = t.children := by
  cases t; rfl

@[simp] theorem nVisits_setQ (t : TreeNode α) (x : ℚ) : (t.setQ x).nVisits = t.nVisits := by
  cases t; rfl

@[simp] theorem Q_value_setQ (t : TreeNode α) (x : ℚ) : (t.setQ x).Q_value = x := by
  cases t; rfl

@[simp] theorem u_value_setQ (t : TreeNode α) (x : ℚ) : (t.setQ x).u_value = t.u_value := by
  cases t; rfl

@[simp] theorem total_value_rewards_setQ (t : TreeNode α) (x : ℚ) :
    (t.setQ x).total_value_rewards = t.total_value_rewards := by
  cases t; rfl

@[simp] theorem total_rollout_rewards_setQ (t : TreeNode α) (x : ℚ) :
    (t.setQ x).total_rollout_rewards = t.total_rollout_rewards := by
  cases t; rfl

@[simp] theorem children_setQ (t : TreeNode α) (x : ℚ) : (t.setQ x).children = t.children := by
  cases t; rfl

@[simp] theorem nVisits_setChildren (t : TreeNode α) (cs) :
    (t.setChildren cs).nVisits = t.nVisits := by
  cases t; rfl

@[simp] theorem u_value_setChildren (t : TreeNode α) (cs) :
    (t.setChildren cs).u_value = t.u_value := by
  cases t; rfl

@[simp] theorem Q_value_setChildren (t : TreeNode α) (cs) :
    (t.setChildren cs).Q_value = t.Q_value := by
  cases t; rfl

@[simp] theorem total_value_rewards_setChildren (t : TreeNode α) (cs) :
    (t.setChildren cs).total_value_rewards = t.total_value_rewards := by
  cases t; rfl

@[simp] theorem total_rollout_rewards_setChildren (t : TreeNode α) (cs) :
    (t.setChildren cs).total_rollout_rewards = t.total_rollout_rewards := by
  cases t; rfl

@[simp] theorem children_setChildren (t : TreeNode α) (cs) :
    (t.setChildren cs).children = cs := by
  cases t; rfl

@[simp] theorem nVisits_updateVisits (t : TreeNode α) :
    t.updateVisits.nVisits = t.nVisits + 1 := by
  cases t; rfl

@[simp] theorem u_value_updateVisits (t : TreeNode α) :
    t.updateVisits.u_value = t.u_value := by
  cases t; rfl

@[simp] theorem Q_value_updateVisits (t : TreeNode α) :
    t.updateVisits.Q_value = t.Q_value := by
  cases t; rfl

@[simp] theorem total_value_rewards_updateVisits (t : TreeNode α) :
    t.updateVisits.total_value_rewards = t.total_value_rewards := by
  cases t; rfl

@[simp] theorem total_rollout_rewards_updateVisits (t : TreeNode α) :
    t.updateVisits.total_rollout_rewards = t.total_rollout_rewards := by
  cases t; rfl

@[simp] theorem children_updateVisits (t : TreeNode α) :
    t.updateVisits.children = t.children := by
  cases t; rfl

@[simp] theorem nVisits_update_value_rewards (t : TreeNode α) (x : ℚ) :
    (t.update_value_rewards x).nVisits = t.nVisits := by
  cases t; rfl

@[simp] theorem children_update_value_rewards (t : TreeNode α) (x : ℚ) :
    (t.update_value_rewards x).children = t.children := by
  cases t; rfl

@[simp] theorem total_value_rewards_update_value_rewards (t : TreeNode α) (x : ℚ) :
    (t.update_value_rewards x).total_value_rewards = t.total_value_rewards + x := by
  cases t; rfl

@[simp] theorem total_rollout_rewards_update_value_rewards (t : TreeNode α) (x : ℚ) :
    (t.update_value_rewards x).total_rollout_rewards = t.total_rollout_rewards := by
  cases t; rfl

@[simp] theorem nVisits_update_rollout_rewards (t : TreeNode α) (x : ℚ) :
    (t.update_rollout_rewards x).nVisits = t.nVisits := by
  cases t; rfl

@[simp] theorem children_update_rollout_rewards (t : TreeNode α) (x : ℚ) :
    (t.update_rollout_rewards x).children = t.children := by
  cases t; rfl

@[simp] theorem total_value_rewards_update_rollout_rewards (t : TreeNode α) (x : ℚ) :
    (t.update_rollout_rewards x).total_value_rewards = t.total_value_rewards := by
  cases t; rfl

@[simp] theorem total_rollout_rewards_update_rollout_rewards (t : TreeNode α) (x : ℚ) :
    (t.update_rollout_rewards x).total_rollout_rewards = t.total_rollout_rewards + x := by
  cases t; rfl

theorem isLeaf_iff (t : TreeNode α) : t.isLeaf = true ↔ t.children = [] := by
  simp [isLeaf, List.isEmpty_iff]

theorem isLeaf_eq_false_iff (t : TreeNode α) : t.isLeaf = false ↔ t.children ≠ [] := by
  rw [← Bool.not_eq_true, not_iff_not, isLeaf_iff]

end TreeNode

section DictLemmas

variable {α : Type} [DecidableEq α]

theorem findChild_isSome_iff (cs : List (α × TreeNode α)) (a : α) :
    (∃ c, findChild cs a = some c) ↔ a ∈ cs.map Prod.fst := by
  induction cs with
  | nil => simp [findChild]
  | cons hd tl ih =>
    obtain ⟨k, c⟩ := hd
    by_cases h : k = a
    · subst h; simp [findChild]
    · simp [findChild, h, ih, Ne.symm h]

theorem findChild_replaceChild_self (cs : List (α × TreeNode α)) (a : α)
    (n : TreeNode α) (h : a ∈ cs.map Prod.fst) :
    findChild (replaceChild cs a n) a = some n := by
  induction cs with
  | nil => simp at h
  | cons hd tl ih =>
    obtain ⟨k, c⟩ := hd
    by_cases hk : k = a
    · subst hk; simp [replaceChild, findChild]
    · simp only [List.map_cons, List.mem_cons] at h
      rcases h with h | h


      · exact absurd h.symm hk
      · simp [replaceChild, findChild, hk, ih h]

theorem dictInsert_ne_nil (cs : List (α × TreeNode α)) (a : α) (n : TreeNode α) :
    dictInsert cs a n ≠ [] := by
  cases cs with
  | nil => simp [dictInsert]
  | cons hd tl =>
    obtain ⟨k, c⟩ := hd
    by_cases h : k = a <;> simp [dictInsert, h]

theorem length_dictInsert_le (cs : List (α × TreeNode α)) (a : α) (n : TreeNode α) :
    (dictInsert cs a n).length ≤ cs.length + 1 := by
  induction cs with
  | nil => simp [dictInsert]
  | cons hd tl ih =>
    obtain ⟨k, c⟩ := hd
    by_cases h : k = a
    · simp [dictInsert, h]
    · simpa [dictInsert, h] using ih

theorem mem_keys_dictInsert (cs : List (α × TreeNode α)) (a k : α) (n : TreeNode α) :
    k ∈ (dictInsert cs a n).map Prod.fst ↔ k = a ∨ k ∈ cs.map Prod.fst := by
  induction cs with
  | nil => simp [dictInsert]
  | cons hd tl ih =>
    obtain ⟨k0, c⟩ := hd
    simp only [dictInsert]
    by_cases h : k0 = a
    · rw [if_pos h]
      subst h
      simp only [List.map_cons, List.mem_cons]
      tauto
    · rw [if_neg h]
      simp only [List.map_cons, List.mem_cons, ih]
      tauto

theorem values_dictInsert (cs : List (α × TreeNode α)) (a : α) (n : TreeNode α) :
    ∀ p ∈ dictInsert cs a n, p.2 = n ∨ p ∈ cs := by
  induction cs with
  | nil => simp [dictInsert]
  | cons hd tl ih =>
    obtain ⟨k0, c⟩ := hd
    by_cases h : k0 = a
    · subst h
      simp only [dictInsert, if_pos rfl]
      intro p hp
      rcases List.mem_cons.mp hp with hp | hp
      · left; rw [hp]
      · right; exact List.mem_cons_of_mem _ hp
    · simp only [dictInsert, if_neg h]
      intro p hp
      rcases List.mem_cons.mp hp with hp | hp
      · right; rw [hp]; exact List.mem_cons_self _ _
      · rcases ih p hp with h2 | h2
        · left; exact h2
        · right; exact List.mem_cons_of_mem _ h2

theorem expandChildren_children (t : TreeNode α) (actions : List (α × ℚ)) :
    (t.expandChildren actions).children = expandFold t.children actions := by
  simp [TreeNode.expandChildren, expandFold]

theorem expandFold_values (actions : List (α × ℚ)) :
    ∀ cs : List (α × TreeNode α), (∀ p ∈ cs, p.2 = TreeNode.new) →
      ∀ p ∈ expandFold cs actions, p.2 = TreeNode.new := by
  induction actions with
  | nil => intro cs h p hp; exact h p hp
  | cons ap rest ih =>
    intro cs h p hp
    refine ih (dictInsert cs ap.1 TreeNode.new) ?_ p hp
    intro q hq
    rcases values_dictInsert cs ap.1 TreeNode.new q hq with h2 | h2
    · exact h2
    · exact h q h2

theorem expandFold_length_le (actions : List (α × ℚ)) :
    ∀ cs : List (α × TreeNode α),
      (expandFold cs actions).length ≤ cs.length + actions.length := by
  induction actions with
  | nil => intro cs; simp [expandFold]
  | cons ap rest ih =>
    intro cs
    calc (expandFold (dictInsert cs ap.1 TreeNode.new) rest).length
        ≤ (dictInsert cs ap.1 TreeNode.new).length + rest.length := ih _
      _ ≤ cs.length + 1 + rest.length := by
          exact Nat.add_le_add_right (length_dictInsert_le cs ap.1 TreeNode.new) _
      _ = cs.length + (ap :: rest).length := by simp; omega

theorem expandFold_keys_mono (actions : List (α × ℚ)) :
    ∀ (cs : List (α × TreeNode α)) (k : α),
      k ∈ cs.map Prod.fst → k ∈ (expandFold cs actions).map Prod.fst := by
  induction actions with
  | nil => intro cs k h; simpa [expandFold] using h
  | cons ap rest ih =>
    intro cs k h
    refine ih _ k ?_
    rw [mem_keys_dictInsert]
    right; exact h

theorem expandFold_keys (actions : List (α × ℚ)) :
    ∀ (cs : List (α × TreeNode α)) (a : α),
      a ∈ actions.map Prod.fst → a ∈ (expandFold cs actions).map Prod.fst := by
  induction actions with
  | nil => intro cs a h; simp at h
  | cons ap rest ih =>
    intro cs a h
    simp only [List.map_cons, List.mem_cons] at h
    rcases h with h | h
    · refine expandFold_keys_mono rest _ a ?_
      rw [mem_keys_dictInsert]
      left; exact h
    · exact ih _ a h

theorem expandFold_ne_nil (actions : List (α × ℚ)) (hne : actions ≠ []) :
    ∀ cs : List (α × TreeNode α), expandFold cs actions ≠ [] := by
  induction actions with
  | nil => exact absurd rfl hne
  | cons ap rest ih =>
    intro cs
    by_cases h : rest = []
    · subst h
      simpa [expandFold] using dictInsert_ne_nil cs ap.1 TreeNode.new
    · exact ih h _

end DictLemmas

/-! ## The first-maximum scan -/

section SelectionLemmas

variable {α : Type}

/-- The scan keeps the first entry of maximal score: the result bounds
every scanned score, and is either the initial candidate or an entry of
the list that strictly beats the initial candidate and everything before
it. -/
theorem argLoop_spec {β : Type} [LinearOrder β] (score : TreeNode α → β) :
    ∀ (cs : List (α × TreeNode α)) (b : TreeNode α) (bA : α) (r : TreeNode α) (rA : α),
      TreeNode.argLoop score cs b bA (score b) = (r, rA) →
      score b ≤ score r ∧ (∀ p ∈ cs, score p.2 ≤ score r) ∧
        ((r, rA) = (b, bA) ∨
          ∃ pre suf, cs = pre ++ (rA, r) :: suf ∧ score b < score r ∧
            ∀ p ∈ pre, score p.2 < score r) := by
  intro cs
  induction cs with
  | nil =>
    intro b bA r rA h
    simp only [TreeNode.argLoop] at h
    obtain ⟨rfl, rfl⟩ := Prod.mk.injEq .. ▸ h
    exact ⟨le_refl _, by simp, Or.inl rfl⟩
  | cons hd rest ih =>
    obtain ⟨k, c⟩ := hd
    intro b bA r rA h
    simp only [TreeNode.argLoop] at h
    by_cases hlt : score b < score c
    · rw [if_pos hlt] at h
      obtain ⟨hbr, hall, hdisj⟩ := ih c k r rA h
      refine ⟨le_of_lt (lt_of_lt_of_le hlt hbr), ?_, ?_⟩
      · intro p hp
        rcases List.mem_cons.mp hp with hp | hp
        · rw [hp]; exact hbr
        · exact hall p hp
      · rcases hdisj with heq | ⟨pre, suf, hdec, hcr, hpre⟩
        · obtain ⟨rfl, rfl⟩ := Prod.mk.injEq .. ▸ heq
          exact Or.inr ⟨[], rest, by simp, hlt, by simp⟩
        · refine Or.inr ⟨(k, c) :: pre, suf, by simp [hdec], lt_trans hlt hcr, ?_⟩
          intro p hp
          rcases List.mem_cons.mp hp with hp | hp
          · rw [hp]; exact hcr
          · exact hpre p hp
    · rw [if_neg hlt] at h
      obtain ⟨hbr, hall, hdisj⟩ := ih b bA r rA h
      have hcb : score c ≤ score b := le_of_not_lt hlt
      refine ⟨hbr, ?_, ?_⟩
      · intro p hp
        rcases List.mem_cons.mp hp with hp | hp
        · rw [hp]; exact le_trans hcb hbr
        · exact hall p hp
      · rcases hdisj with heq | ⟨pre, suf, hdec, hbrlt, hpre⟩
        · exact Or.inl heq
        · refine Or.inr ⟨(k, c) :: pre, suf, by simp [hdec], hbrlt, ?_⟩
          intro p hp
          rcases List.mem_cons.mp hp with hp | hp
          · rw [hp]; exact lt_of_le_of_lt hcb hbrlt
          · exact hpre p hp

/-- On a node with children, `selection` succeeds. -/
theorem selection_eq_some (t : TreeNode α) (h : t.children ≠ []) :
    ∃ c a, t.selection = some (c, a) := by
  unfold TreeNode.selection
  match hc : t.children with
  | [] => exact absurd hc h
  | (k0, c0) :: rest => exact ⟨_, _, rfl⟩

/-- The pair returned by `selection` is an entry of the children list. -/
theorem selection_mem (t : TreeNode α) (c : TreeNode α) (a : α)
    (h : t.selection = some (c, a)) : (a, c) ∈ t.children := by
  unfold TreeNode.selection at h
  rcases hc : t.children with _ | ⟨⟨k0, c0⟩, rest⟩
  · rw [hc] at h
    simp at h
  · rw [hc] at h
    have h2 : TreeNode.argLoop TreeNode.toValue ((k0, c0) :: rest) c0 k0 c0.toValue = (c, a) := by
      simpa using h
    obtain ⟨_, _, hdisj⟩ := argLoop_spec TreeNode.toValue ((k0, c0) :: rest) c0 k0 c a h2
    rcases hdisj with heq | ⟨pre, suf, hdec, _, _⟩
    · rw [Prod.mk.injEq] at heq
      obtain ⟨rfl, rfl⟩ := heq
      exact List.mem_cons_self _ _
    · rw [hdec]
      simp

end SelectionLemmas

/-! ## Lemmas about `updateU_value` -/

section UpdateULemmas

variable {α : Type}

theorem sameExceptU_refl (a : TreeNode α) : sameExceptU a a :=
  ⟨rfl, rfl, rfl, rfl, rfl⟩

theorem sameExceptU_trans {a b c : TreeNode α}
    (h1 : sameExceptU a b) (h2 : sameExceptU b c) : sameExceptU a c := by
  obtain ⟨x1, x2, x3, x4, x5⟩ := h1
  obtain ⟨y1, y2, y3, y4, y5⟩ := h2
  exact ⟨y1.trans x1, y2.trans x2, y3.trans x3, y4.trans x4, y5.trans x5⟩

theorem sameExceptU_setU (c : TreeNode α) (x : ℚ) : sameExceptU c (c.setU x) := by
  simp [sameExceptU]

theorem forall2_entryR_refl (cs : List (α × TreeNode α)) :
    List.Forall₂ entryR cs cs := by
  induction cs with
  | nil => exact List.Forall₂.nil
  | cons hd tl ih => exact List.Forall₂.cons ⟨rfl, sameExceptU_refl _⟩ ih

theorem forall2_entryR_trans :
    ∀ {cs1 cs2 cs3 : List (α × TreeNode α)},
      List.Forall₂ entryR cs1 cs2 → List.Forall₂ entryR cs2 cs3 →
      List.Forall₂ entryR cs1 cs3 := by
  intro cs1 cs2 cs3 h1 h2
  induction h1 generalizing cs3 with
  | nil => cases h2; exact List.Forall₂.nil
  | cons hab hrest ih =>
    cases h2 with
    | cons hbc hrest2 =>
      exact List.Forall₂.cons ⟨hbc.1.trans hab.1, sameExceptU_trans hab.2 hbc.2⟩ (ih hrest2)

theorem forall2_entryR_keys {cs cs' : List (α × TreeNode α)}
    (h : List.Forall₂ entryR cs cs') : cs'.map Prod.fst = cs.map Prod.fst := by
  induction h with
  | nil => rfl
  | cons hab _ ih => simp [ih, hab.1]

end UpdateULemmas

section UpdateUSpecs

variable {α : Type} [DecidableEq α]

theorem setUValue_spec (p : ℚ) :
    ∀ (cs : List (α × TreeNode α)) (a : α) (c : TreeNode α),
      findChild cs a = some c →
      ∃ cs', TreeNode.setUValue cs a p = some cs' ∧
        List.Forall₂ entryR cs cs' ∧
        findChild cs' a = some (c.setU (p / (1 + (c.nVisits : ℚ)))) ∧
        ∀ k, k ≠ a → findChild cs' k = findChild cs k := by
  intro cs
  induction cs with
  | nil => intro a c h; simp [findChild] at h
  | cons hd tl ih =>
    obtain ⟨k0, c0⟩ := hd
    intro a c h
    by_cases hk : k0 = a
    · subst hk
      rw [findChild, if_pos rfl, Option.some.injEq] at h
      subst h
      refine ⟨(k0, c0.setU (p / (1 + (c0.nVisits : ℚ)))) :: tl, ?_, ?_, ?_, ?_⟩
      · rw [TreeNode.setUValue, if_pos rfl]
      · exact List.Forall₂.cons ⟨rfl, sameExceptU_setU _ _⟩ (forall2_entryR_refl tl)
      · rw [findChild, if_pos rfl]
      · intro k hne
        rw [findChild, findChild, if_neg (fun hh => hne hh.symm),
          if_neg (fun hh => hne hh.symm)]
    · rw [findChild, if_neg hk] at h
      obtain ⟨tl', hgo, hf2, hfind, hother⟩ := ih a c h
      refine ⟨(k0, c0) :: tl', ?_, ?_, ?_, ?_⟩
      · rw [TreeNode.setUValue, if_neg hk, hgo]
      · exact List.Forall₂.cons ⟨rfl, sameExceptU_refl _⟩ hf2
      · rw [findChild, if_neg hk]; exact hfind
      · intro k hne
        by_cases hk0 : k0 = k
        · rw [findChild, if_pos hk0, findChild, if_pos hk0]
        · rw [findChild, if_neg hk0, findChild, if_neg hk0]
          exact hother k hne

theorem updateU_go_ok :
    ∀ (ap : List (α × ℚ)) (cs : List (α × TreeNode α)),
      (∀ a ∈ ap.map Prod.fst, a ∈ cs.map Prod.fst) →
      ∃ cs', TreeNode.updateU_go cs ap = some cs' ∧ List.Forall₂ entryR cs cs' := by
  intro ap
  induction ap with
  | nil => intro cs _; exact ⟨cs, rfl, forall2_entryR_refl cs⟩
  | cons hd rest ih =>
    obtain ⟨a, p⟩ := hd
    intro cs hcov
    have ha : a ∈ cs.map Prod.fst := hcov a (by simp)
    obtain ⟨c, hc⟩ := (findChild_isSome_iff cs a).mpr ha
    obtain ⟨cs1, hset, hf2, _, _⟩ := setUValue_spec p cs a c hc
    obtain ⟨cs', hgo, hf2'⟩ := ih cs1 (by
      intro k hk
      rw [forall2_entryR_keys hf2]
      exact hcov k (by simp [hk]))
    refine ⟨cs', ?_, forall2_entryR_trans hf2 hf2'⟩
    rw [TreeNode.updateU_go, hset]
    exact hgo

theorem updateU_go_spec :
    ∀ (ap : List (α × ℚ)) (cs : List (α × TreeNode α)),
      (∀ a ∈ ap.map Prod.fst, a ∈ cs.map Prod.fst) →
      (ap.map Prod.fst).Nodup →
      ∃ cs', TreeNode.updateU_go cs ap = some cs' ∧ List.Forall₂ entryR cs cs' ∧
        (∀ a p c, (a, p) ∈ ap → findChild cs a = some c →
          findChild cs' a = some (c.setU (p / (1 + (c.nVisits : ℚ))))) ∧
        (∀ k, k ∉ ap.map Prod.fst → findChild cs' k = findChild cs k) := by
  intro ap
  induction ap with
  | nil =>
    intro cs _ _
    exact ⟨cs, rfl, forall2_entryR_refl cs, by simp, fun k _ => rfl⟩
  | cons hd rest ih =>
    obtain ⟨a, p⟩ := hd
    intro cs hcov hnd
    simp only [List.map_cons, List.nodup_cons] at hnd
    obtain ⟨hna, hndrest⟩ := hnd
    have ha : a ∈ cs.map Prod.fst := hcov a (by simp)
    obtain ⟨c, hc⟩ := (findChild_isSome_iff cs a).mpr ha
    obtain ⟨cs1, hset, hf2, hfind1, hother1⟩ := setUValue_spec p cs a c hc
    obtain ⟨cs', hgo, hf2', hassign, hother⟩ := ih cs1 (by
      intro k hk
      rw [forall2_entryR_keys hf2]
      exact hcov k (by simp [hk])) hndrest
    refine ⟨cs', ?_, forall2_entryR_trans hf2 hf2', ?_, ?_⟩
    · rw [TreeNode.updateU_go, hset]
      exact hgo
    · intro a' p' c' hmem hfc
      rcases List.mem_cons.mp hmem with heq | hmem'
      · rw [Prod.mk.injEq] at heq
        obtain ⟨rfl, rfl⟩ := heq
        rw [hc, Option.some.injEq] at hfc
        subst hfc
        rw [hother a' hna]
        exact hfind1
      · have hne : a' ≠ a := by
          intro hh
          subst hh
          exact hna (List.mem_map_of_mem Prod.fst hmem')
        refine hassign a' p' c' hmem' ?_
        rw [hother1 a' hne]
        exact hfc
    · intro k hk
      simp only [List.map_cons, List.mem_cons, not_or] at hk
      rw [hother k hk.2]
      exact hother1 k hk.1

/-- `updateU_value` succeeds whenever enough actions are supplied and the
processed action keys are child keys; the result differs from the input
only in the children's exploration bonuses. -/
theorem updateU_value_ok (t : TreeNode α) (actions : List (α × ℚ))
    (hlen : t.children.length ≤ actions.length)
    (hcov : ∀ a ∈ (actions.take t.children.length).map Prod.fst,
      a ∈ t.children.map Prod.fst) :
    ∃ t', t.updateU_value actions = some t' ∧
      List.Forall₂ entryR t.children t'.children ∧
      t'.nVisits = t.nVisits ∧ t'.u_value = t.u_value ∧ t'.Q_value = t.Q_value ∧
      t'.total_value_rewards = t.total_value_rewards ∧
      t'.total_rollout_rewards = t.total_rollout_rewards := by
  obtain ⟨cs', hgo, hf2⟩ := updateU_go_ok (actions.take t.children.length) t.children hcov
  refine ⟨t.setChildren cs', ?_, by simpa using hf2, by simp, by simp, by simp, by simp, by simp⟩
  rw [TreeNode.updateU_value, if_neg (not_lt.mpr hlen), hgo]

end UpdateUSpecs

/-! ## Lemmas about path updates and the backward pass -/

section UpdateQLemmas

variable {α : Type}

theorem updateQ_value_of_ne_nil (t : TreeNode α) (h : t.children ≠ []) :
    t.updateQ_value = some (t.setQ t.backupQ_value) := by
  rw [TreeNode.updateQ_value, if_neg]
  rw [TreeNode.isLeaf_iff]
  exact h

theorem updateQ_value_of_leaf (t : TreeNode α) (h : t.children = [])
    (hn : t.nVisits ≠ 0) :
    t.updateQ_value =
      some (t.setQ ((1 - LAMBDA) * (t.total_value_rewards / (t.nVisits : ℚ)) +
        LAMBDA * (t.total_rollout_rewards / (t.nVisits : ℚ)))) := by
  rw [TreeNode.updateQ_value, if_pos ((TreeNode.isLeaf_iff t).mpr h), if_neg hn]

end UpdateQLemmas

section PathLemmas

variable {α : Type} [DecidableEq α]

theorem modifyAtPath_get (f : TreeNode α → TreeNode α) :
    ∀ (path : List α) (t x : TreeNode α),
      getAtPath t path = some x →
      ∃ t2, modifyAtPath t path f = some t2 ∧ getAtPath t2 path = some (f x) := by
  intro path
  induction path with
  | nil =>
    intro t x h
    rw [getAtPath, Option.some.injEq] at h
    subst h
    exact ⟨f t, rfl, rfl⟩
  | cons a rest ih =>
    intro t x h
    rw [getAtPath] at h
    cases hc : findChild t.children a with
    | none => rw [hc] at h; simp at h
    | some c =>
      rw [hc] at h
      obtain ⟨c1, hm, hg⟩ := ih c x h
      refine ⟨t.setChildren (replaceChild t.children a c1), ?_, ?_⟩
      · simp only [modifyAtPath, hc, hm]
      · simp only [getAtPath, TreeNode.children_setChildren,
          findChild_replaceChild_self _ _ _ ((findChild_isSome_iff ..).mp ⟨c, hc⟩)]
        exact hg

theorem backup_get :
    ∀ (rest : List α) (a : α) (t x x1 : TreeNode α),
      getAtPath t (a :: rest) = some x →
      x.updateQ_value = some x1 →
      ∃ t3, backup t (a :: rest) = some t3 ∧ getAtPath t3 (a :: rest) = some x1 := by
  intro rest
  induction rest with
  | nil =>
    intro a t x x1 hg hq
    rw [getAtPath] at hg
    cases hc : findChild t.children a with
    | none => rw [hc] at hg; simp at hg
    | some c =>
      rw [hc] at hg
      simp only [getAtPath, Option.some.injEq] at hg
      subst hg
      refine ⟨t.setChildren (replaceChild t.children a x1), ?_, ?_⟩
      · simp only [backup, hc, hq]
      · simp only [getAtPath, TreeNode.children_setChildren,
          findChild_replaceChild_self _ _ _ ((findChild_isSome_iff ..).mp ⟨c, hc⟩)]
  | cons b rest' ih =>
    intro a t x x1 hg hq
    rw [getAtPath] at hg
    cases hc : findChild t.children a with
    | none => rw [hc] at hg; simp at hg
    | some c =>
      rw [hc] at hg
      obtain ⟨c3, hb, hg3⟩ := ih b c x x1 hg hq
      have hcne : c3.children ≠ [] := by
        rw [getAtPath] at hg3
        cases hcb : findChild c3.children b with
        | none => rw [hcb] at hg3; simp at hg3
        | some cc =>
          intro hnil
          rw [hnil] at hcb
          simp [findChild] at hcb
      have e0 : backup t (a :: b :: rest') =
          (match findChild t.children a with
            | none => none
            | some c =>
              match backup c (b :: rest') with
              | none => none
              | some c1 =>
                match c1.updateQ_value with
                | none => none
                | some c2 => some (t.setChildren (replaceChild t.children a c2))) := by
        rw [backup]
      refine ⟨t.setChildren (replaceChild t.children a (c3.setQ c3.backupQ_value)), ?_, ?_⟩
      · simp only [e0, hc, hb, updateQ_value_of_ne_nil c3 hcne]
      · simp only [getAtPath, TreeNode.children_setChildren, TreeNode.children_setQ,
          findChild_replaceChild_self _ _ _ ((findChild_isSome_iff ..).mp ⟨c, hc⟩)]
        simp only [getAtPath] at hg3
        exact hg3

end PathLemmas

/-! ## The in-tree phase on a fresh (unexpanded) subtree -/

section FreshDescent

theorem unvisitedLeaf_new {α : Type} : UnvisitedLeaf (TreeNode.new : TreeNode α) := by
  simp [UnvisitedLeaf, TreeNode.new]

theorem forall2_unvisited {α : Type} {cs cs' : List (α × TreeNode α)}
    (h : List.Forall₂ entryR cs cs') (hun : ∀ p ∈ cs, UnvisitedLeaf p.2) :
    ∀ p ∈ cs', UnvisitedLeaf p.2 := by
  induction h with
  | nil => simp
  | cons hab hrest ih =>
    intro p hp
    rcases List.mem_cons.mp hp with hp | hp
    · subst hp
      obtain ⟨h1, h2, h3, h4, h5⟩ := hab.2
      obtain ⟨u1, u2, u3, u4⟩ := hun _ (List.mem_cons_self _ _)
      exact ⟨h1.trans u1, h3.trans u2, h4.trans u3, h5.trans u4⟩
    · exact ih (fun q hq => hun q (List.mem_cons_of_mem _ hq)) p hp

variable {σ α : Type} [DecidableEq α]

/-- Descending from an unexpanded node with a never-empty policy: the
in-tree loop succeeds, visits exactly `L` nodes (every freshly created
node is visited once, so the `THRESHOLD` extension never fires), and the
deepest visited node is an unexpanded once-visited node with empty
accumulators. -/
theorem inTreeLoop_fresh (do_move : σ → α → σ) (policy : σ → List (α × ℚ))
    (hpol : ∀ s, policy s ≠ []) :
    ∀ (fuel : ℕ) (L : ℤ) (t : TreeNode α) (s : σ),
      0 ≤ L → L ≤ (fuel : ℤ) → t.children = [] →
      ∃ t' s' path, inTreeLoop do_move policy fuel L t s = some (t', s', path) ∧
        (path.length : ℤ) = L ∧
        (L = 0 → t' = t ∧ s' = s) ∧
        (1 ≤ L → ∃ leaf, getAtPath t' path = some leaf ∧ leaf.children = [] ∧
          leaf.nVisits = 1 ∧ leaf.total_value_rewards = 0 ∧
          leaf.total_rollout_rewards = 0) := by
  intro fuel
  induction fuel with
  | zero =>
    intro L t s h0 hf hc
    have hL : L = 0 := le_antisymm (by exact_mod_cast hf) h0
    subst hL
    exact ⟨t, s, [], by simp [inTreeLoop], rfl, fun _ => ⟨rfl, rfl⟩,
      fun h => absurd h (by norm_num)⟩
  | succ fuel ih =>
    intro L t s h0 hf hc
    by_cases hL0 : L ≤ 0
    · have hL : L = 0 := le_antisymm hL0 h0
      subst hL
      exact ⟨t, s, [], by simp [inTreeLoop], rfl, fun _ => ⟨rfl, rfl⟩,
        fun h => absurd h (by norm_num)⟩
    · push_neg at hL0
      have hane : policy s ≠ [] := hpol s
      have hleaf : t.isLeaf = true := (TreeNode.isLeaf_iff t).mpr hc
      have hcs : (t.expandChildren (policy s)).children = expandFold [] (policy s) := by
        rw [expandChildren_children, hc]
      have hlen : (t.expandChildren (policy s)).children.length ≤ (policy s).length := by
        rw [hcs]
        simpa using expandFold_length_le (policy s) []
      have hkeys : ∀ a ∈ (((policy s).take
          ((t.expandChildren (policy s)).children.length)).map Prod.fst),
          a ∈ (t.expandChildren (policy s)).children.map Prod.fst := by
        intro a ha
        rw [hcs]
        refine expandFold_keys (policy s) [] a ?_
        obtain ⟨p, hp, hpa⟩ := List.mem_map.mp ha
        exact hpa ▸ List.mem_map_of_mem Prod.fst (List.mem_of_mem_take hp)
      obtain ⟨t2, hupd, hf2, _, _, _, _, _⟩ :=
        updateU_value_ok (t.expandChildren (policy s)) (policy s) hlen hkeys
      have ht2ne : t2.children ≠ [] := by
        intro hnil
        have hlen2 := List.Forall₂.length_eq hf2
        rw [hnil] at hlen2
        simp only [List.length_nil] at hlen2
        refine expandFold_ne_nil (policy s) hane [] ?_
        rw [← hcs]
        refine List.length_eq_zero.mp ?_
        omega
      have ht2unv : ∀ p ∈ t2.children, UnvisitedLeaf p.2 := by
        refine forall2_unvisited hf2 ?_
        intro p hp
        rw [hcs] at hp
        rw [expandFold_values (policy s) [] (by simp) p hp]
        exact unvisitedLeaf_new
      obtain ⟨child, action, hsel⟩ := selection_eq_some t2 ht2ne
      have hmem := selection_mem t2 child action hsel
      have hchildunv : UnvisitedLeaf child := ht2unv (action, child) hmem
      have hvis : (child.updateVisits).nVisits = 1 := by
        rw [TreeNode.nVisits_updateVisits, hchildunv.1]
      have hnoext : ¬(L - 1 = 0 ∧ THRESHOLD < (child.updateVisits).nVisits) := by
        rintro ⟨_, hgt⟩
        rw [hvis] at hgt
        exact absurd hgt (by norm_num [THRESHOLD])
      obtain ⟨child2, s2, path, hrec, hlenp, hzero, hleafp⟩ :=
        ih (L - 1) child.updateVisits (do_move s action) (by omega)
          (by push_cast at hf ⊢; omega)
          (by rw [TreeNode.children_updateVisits]; exact hchildunv.2.2.2)
      have hactmem : action ∈ t2.children.map Prod.fst :=
        List.mem_map_of_mem Prod.fst hmem
      refine ⟨t2.setChildren (replaceChild t2.children action child2), s2,
        action :: path, ?_, ?_, ?_, ?_⟩
      · rw [inTreeLoop, if_neg (not_le.mpr hL0)]
        simp only [hleaf, if_true, hupd, hsel, if_neg hnoext, hrec]
      · simp only [List.length_cons]
        push_cast
        omega
      · intro habs
        omega
      · intro _
        have hstep : getAtPath (t2.setChildren (replaceChild t2.children action child2))
            (action :: path) = getAtPath child2 path := by
          simp only [getAtPath, TreeNode.children_setChildren,
            findChild_replaceChild_self _ _ _ hactmem]
        rw [hstep]
        by_cases hL1 : L - 1 = 0
        · obtain ⟨rfl, _⟩ := hzero hL1
          have hplen : (path.length : ℤ) = 0 := by rw [hlenp, hL1]
          have hpnil : path = [] := List.length_eq_zero.mp (by exact_mod_cast hplen)
          subst hpnil
          rw [getAtPath]
          exact ⟨child.updateVisits, rfl, by
            rw [TreeNode.children_updateVisits]; exact hchildunv.2.2.2, hvis, by
            rw [TreeNode.total_value_rewards_updateVisits]; exact hchildunv.2.1, by
            rw [TreeNode.total_rollout_rewards_updateVisits]; exact hchildunv.2.2.1⟩
        · exact hleafp (by omega)

end FreshDescent

/-! ## Claim theorems -/

/-- **C1.** For every node with `nVisits ≥ 1`, `updateQ_value` sets
`Q_value` to `(1 − 0.5) · total_value_rewards/nVisits +
0.5 · total_rollout_rewards/nVisits` when the node is a leaf (empty
children mapping), and to the unweighted arithmetic mean of the direct
children's current `Q_value` when the node has at least one child. -/
theorem updateQ_value_formula {α : Type} (t : TreeNode α) (h : 1 ≤ t.nVisits) :
    (t.children = [] →
      t.updateQ_value = some (t.setQ
        ((1 - (1 : ℚ) / 2) * (t.total_value_rewards / (t.nVisits : ℚ)) +
          ((1 : ℚ) / 2) * (t.total_rollout_rewards / (t.nVisits : ℚ))))) ∧
    (t.children ≠ [] →
      t.updateQ_value = some (t.setQ
        ((t.children.map fun p => p.2.Q_value).sum / (t.children.length : ℚ)))) := by
  constructor
  · intro hc
    rw [updateQ_value_of_leaf t hc (by omega)]
    rfl
  · intro hc
    rw [updateQ_value_of_ne_nil t hc]
    rfl

/-- Witness for C1: a leaf with 2 visits and accumulators 1 and 3 gets
`Q = 0.5·(1/2) + 0.5·(3/2) = 1`; a node with one child of `Q = 7` gets
the mean `7`. -/
theorem updateQ_value_formula_witness :
    (∃ t', (TreeNode.mk 2 0 0 1 3 ([] : List (ℕ × TreeNode ℕ))).updateQ_value = some t' ∧
      t'.Q_value = 1) ∧
    (∃ t', (TreeNode.mk 1 0 0 0 0
        [(0, TreeNode.mk 0 0 7 0 0 ([] : List (ℕ × TreeNode ℕ)))]).updateQ_value = some t' ∧
      t'.Q_value = 7) := by
  constructor
  · refine ⟨_, (updateQ_value_formula (TreeNode.mk 2 0 0 1 3 []) (by norm_num)).1 rfl, ?_⟩
    simp
    norm_num
  · refine ⟨_, (updateQ_value_formula
      (TreeNode.mk 1 0 0 0 0 [(0, TreeNode.mk 0 0 7 0 0 [])]) (by norm_num)).2 (by simp), ?_⟩
    simp

/-- **C8.** Invoking `updateQ_value` on a leaf node with `nVisits = 0`
surfaces an error (the ZeroDivisionError raised by the division,
modelled as `none`) instead of propagating an undefined numeric
result. -/
theorem updateQ_value_zero_visit_leaf {α : Type} (t : TreeNode α)
    (h1 : t.children = []) (h2 : t.nVisits = 0) :
    t.updateQ_value = none := by
  rw [TreeNode.updateQ_value, if_pos ((TreeNode.isLeaf_iff t).mpr h1), if_pos h2]

/-- Witness for C8: a freshly constructed node. -/
theorem updateQ_value_zero_visit_leaf_witness :
    (TreeNode.new : TreeNode ℕ).updateQ_value = none :=
  updateQ_value_zero_visit_leaf TreeNode.new rfl rfl

/-- **C9 (evaluation of the code).** The unimplemented extension points
do NOT fail loudly: `DFS_rollout_phase` silently returns the value
`None` for every engine and state, and `ParallelMCTS` inherits every
operation from `MCTS` unchanged — a concrete `ParallelMCTS` engine
answers `get_move` normally instead of signalling "not supported". -/
theorem rollout_phase_and_parallel_are_silent :
    (∀ (σ α : Type) (m : MCTS σ α) (s : σ), m.DFS_rollout_phase s = none) ∧
    (∀ (σ α : Type) (m : ParallelMCTS σ α), m.get_move = MCTS.get_move m) ∧
    (∀ (σ α : Type) [DecidableEq α] (m : ParallelMCTS σ α) (do_move : σ → α → σ)
      (fuel n : ℕ) (L : ℤ), m.simulation do_move fuel n L = MCTS.simulation m do_move fuel n L) ∧
    (ParallelMCTS.get_move (seedEngine : ParallelMCTS Unit ℕ) = some 0) := by
  refine ⟨fun σ α m s => rfl, fun σ α m => rfl, ?_, ?_⟩
  · intro σ α inst m do_move fuel n L
    rfl
  · simp [ParallelMCTS.get_move, MCTS.get_move, seedEngine, seedRoot, TreeNode.argLoop]

/-- **C10.** With a non-positive depth budget the in-tree phase returns
an empty visited list, the unmodified tree and the unmodified state
copy, independently of the policy function; consequently a full
simulation fails (the evaluation phase's access to `visited[0]` raises,
i.e. `none`). -/
theorem DFS_nonpositive_budget {σ α : Type} [DecidableEq α]
    (do_move : σ → α → σ) (fuel : ℕ) (L : ℤ) (hL : L ≤ 0) :
    (∀ m : MCTS σ α, m.DFS_in_tree_phase do_move fuel L = some (m.root, m.state, [])) ∧
    (∀ (pol1 pol2 : σ → List (α × ℚ)) (t : TreeNode α) (s : σ),
      inTreeLoop do_move pol1 fuel L t s = inTreeLoop do_move pol2 fuel L t s) ∧
    (∀ (m : MCTS σ α) (n : ℕ), 1 ≤ n → m.simulation do_move fuel n L = none) := by
  have hloop : ∀ (pol : σ → List (α × ℚ)) (t : TreeNode α) (s : σ),
      inTreeLoop do_move pol fuel L t s = some (t, s, []) := by
    intro pol t s
    cases fuel with
    | zero => rw [inTreeLoop, if_pos hL]
    | succ fuel => rw [inTreeLoop, if_pos hL]
  refine ⟨fun m => hloop _ _ _,
    fun pol1 pol2 t s => (hloop pol1 t s).trans (hloop pol2 t s).symm, ?_⟩
  intro m n hn
  match n, hn with
  | n + 1, _ =>
    rw [MCTS.simulation]
    rw [MCTS.DFS_in_tree_phase, hloop]
    simp [MCTS.value_evaluation]

/-- **C3.** On every node with at least one child, `selection` returns a
pair `(child, action)` such that the child's `Q_value + u_value`
(`toValue`) is maximal over all children, and the returned entry is the
first one attaining the maximum in the children's deterministic
(insertion) iteration order: every entry strictly before it has a
strictly smaller `toValue`. -/
theorem selection_first_max {α : Type} (t : TreeNode α) (h : t.children ≠ []) :
    ∃ c a pre suf, t.selection = some (c, a) ∧
      t.children = pre ++ (a, c) :: suf ∧
      (∀ p ∈ t.children, p.2.toValue ≤ c.toValue) ∧
      (∀ p ∈ pre, p.2.toValue < c.toValue) := by
  rcases hc : t.children with _ | ⟨⟨k0, c0⟩, rest⟩
  · exact absurd hc h
  · have hsel : t.selection =
        some (TreeNode.argLoop TreeNode.toValue ((k0, c0) :: rest) c0 k0 c0.toValue) := by
      rw [TreeNode.selection, hc]
    rcases hres : TreeNode.argLoop TreeNode.toValue ((k0, c0) :: rest) c0 k0 c0.toValue
      with ⟨r, rA⟩
    obtain ⟨hle, hall, hdisj⟩ := argLoop_spec TreeNode.toValue ((k0, c0) :: rest) c0 k0 r rA hres
    refine ⟨r, rA, ?_⟩
    rcases hdisj with heq | ⟨pre, suf, hdec, _, hpre⟩
    · rw [Prod.mk.injEq] at heq
      obtain ⟨rfl, rfl⟩ := heq
      exact ⟨[], rest, by rw [hsel, hres], by simp, hall, by simp⟩
    · exact ⟨pre, suf, by rw [hsel, hres], hdec, hall, hpre⟩

/-- Witness for C3: two children with tied `toValue` (`1/2`) — the
conclusion exhibits the first-encountered maximal child. -/
theorem selection_first_max_witness :
    ∃ c a pre suf,
      (TreeNode.mk 0 0 0 0 0 [(0, TreeNode.mk 0 0 (1/2) 0 0 ([] : List (ℕ × TreeNode ℕ))),
        (1, TreeNode.mk 0 0 (1/2) 0 0 [])]).selection = some (c, a) ∧
      (TreeNode.mk 0 0 0 0 0 [(0, TreeNode.mk 0 0 (1/2) 0 0 ([] : List (ℕ × TreeNode ℕ))),
        (1, TreeNode.mk 0 0 (1/2) 0 0 [])]).children = pre ++ (a, c) :: suf ∧
      (∀ p ∈ (TreeNode.mk 0 0 0 0 0 [(0, TreeNode.mk 0 0 (1/2) 0 0 ([] : List (ℕ × TreeNode ℕ))),
        (1, TreeNode.mk 0 0 (1/2) 0 0 [])]).children, p.2.toValue ≤ c.toValue) ∧
      (∀ p ∈ pre, p.2.toValue < c.toValue) :=
  selection_first_max _ (by simp)

/-- **C4.** `get_move` returns the action of the root child whose
`nVisits` is maximal among the root's children, ties broken by the first
entry in iteration order; on a childless root it returns the error
(`none`, the IndexError) rather than a default action. -/
theorem get_move_max_visits {σ α : Type} (m : MCTS σ α) :
    (m.root.children = [] → m.get_move = none) ∧
    (m.root.children ≠ [] →
      ∃ a c pre suf, m.get_move = some a ∧
        m.root.children = pre ++ (a, c) :: suf ∧
        (∀ p ∈ m.root.children, p.2.nVisits ≤ c.nVisits) ∧
        (∀ p ∈ pre, p.2.nVisits < c.nVisits)) := by
  constructor
  · intro hc
    simp only [MCTS.get_move, hc]
  · intro h
    rcases hc : m.root.children with _ | ⟨⟨k0, c0⟩, rest⟩
    · exact absurd hc h
    · have hsel : m.get_move =
          some (TreeNode.argLoop TreeNode.nVisits ((k0, c0) :: rest) c0 k0 c0.nVisits).2 := by
        rw [MCTS.get_move, hc]
      rcases hres : TreeNode.argLoop TreeNode.nVisits ((k0, c0) :: rest) c0 k0 c0.nVisits
        with ⟨r, rA⟩
      obtain ⟨hle, hall, hdisj⟩ :=
        argLoop_spec TreeNode.nVisits ((k0, c0) :: rest) c0 k0 r rA hres
      rcases hdisj with heq | ⟨pre, suf, hdec, _, hpre⟩
      · rw [Prod.mk.injEq] at heq
        obtain ⟨rfl, rfl⟩ := heq
        exact ⟨rA, r, [], rest, by rw [hsel, hres], by simp, hall, by simp⟩
      · exact ⟨rA, r, pre, suf, by rw [hsel, hres], hdec, hall, hpre⟩

/-- Witness for C4: on `seedEngine` (a single child with 50 visits) the
conclusion holds concretely, and a childless root gives `none`. -/
theorem get_move_max_visits_witness :
    ((MCTS.mk () (TreeNode.new : TreeNode ℕ) (fun _ => (0:ℚ)) (fun _ => []) fun _ => 0 :
      MCTS Unit ℕ).get_move = none) ∧
    ∃ a c pre suf, seedEngine.get_move = some a ∧
      seedEngine.root.children = pre ++ (a, c) :: suf ∧
      (∀ p ∈ seedEngine.root.children, p.2.nVisits ≤ c.nVisits) ∧
      (∀ p ∈ pre, p.2.nVisits < c.nVisits) :=
  ⟨(get_move_max_visits _).1 rfl,
    (get_move_max_visits seedEngine).2 (by simp [seedEngine, seedRoot])⟩

/-- **C6.** For every node and every supplied action list covering the
node's children (the listed keys are exactly the child keys, without
duplicates), `updateU_value` sets each listed child's `u_value` to
`priorProbability / (1 + that child's nVisits)` and changes no other
field of any node: the node's own fields are untouched and the children
are pairwise identical except for their bonuses (`entryR`), which keeps
each child's statistics and entire subtree intact. -/
theorem updateU_value_sets_bonuses {α : Type} [DecidableEq α]
    (t : TreeNode α) (actions : List (α × ℚ))
    (hperm : List.Perm (actions.map Prod.fst) (t.children.map Prod.fst))
    (hnd : (actions.map Prod.fst).Nodup) :
    ∃ t', t.updateU_value actions = some t' ∧
      t'.nVisits = t.nVisits ∧ t'.u_value = t.u_value ∧ t'.Q_value = t.Q_value ∧
      t'.total_value_rewards = t.total_value_rewards ∧
      t'.total_rollout_rewards = t.total_rollout_rewards ∧
      List.Forall₂ entryR t.children t'.children ∧
      (∀ a p c, (a, p) ∈ actions → findChild t.children a = some c →
        findChild t'.children a = some (c.setU (p / (1 + (c.nVisits : ℚ))))) := by
  have hlen : t.children.length ≤ actions.length := by
    have := hperm.length_eq
    simp only [List.length_map] at this
    omega
  have htake : actions.take t.children.length = actions := by
    refine List.take_of_length_le ?_
    have := hperm.length_eq
    simp only [List.length_map] at this
    omega
  obtain ⟨cs', hgo, hf2, hassign, _⟩ := updateU_go_spec actions t.children
    (fun a ha => hperm.mem_iff.mp ha) hnd
  refine ⟨t.setChildren cs', ?_, by simp, by simp, by simp, by simp, by simp,
    by simpa using hf2, ?_⟩
  · rw [TreeNode.updateU_value, if_neg (not_lt.mpr hlen), htake, hgo]
  · intro a p c hmem hfind
    simpa using hassign a p c hmem hfind

/-- Witness for C6: a node with children at keys 0 (3 visits) and 1
(0 visits), priors supplied in the order 1, 0. -/
theorem updateU_value_sets_bonuses_witness :
    ∃ t', (TreeNode.mk 0 0 0 0 0
        [(0, TreeNode.mk 3 0 0 0 0 ([] : List (ℕ × TreeNode ℕ))),
          (1, TreeNode.mk 0 0 0 0 0 [])]).updateU_value [(1, 1/2), (0, 1/4)] = some t' ∧
      findChild t'.children 0 =
        some ((TreeNode.mk 3 0 0 0 0 []).setU ((1/4) / (1 + ((3:ℕ) : ℚ)))) ∧
      findChild t'.children 1 =
        some ((TreeNode.mk 0 0 0 0 0 []).setU ((1/2) / (1 + ((0:ℕ) : ℚ)))) := by
  obtain ⟨t', h1, _, _, _, _, _, _, h8⟩ := updateU_value_sets_bonuses
    (TreeNode.mk 0 0 0 0 0 [(0, TreeNode.mk 3 0 0 0 0 ([] : List (ℕ × TreeNode ℕ))),
      (1, TreeNode.mk 0 0 0 0 0 [])]) [(1, 1/2), (0, 1/4)]
    (by decide) (by decide)
  exact ⟨t', h1,
    h8 0 (1/4) (TreeNode.mk 3 0 0 0 0 []) (by simp) (by simp [findChild]),
    h8 1 (1/2) (TreeNode.mk 0 0 0 0 0 []) (by simp) (by simp [findChild])⟩

/-- **C7.** Simulations never mutate the engine's real game state: the
in-tree phase works on a copy of `state`, and after any number of
simulations the engine holds the same `state` (and the same strategy
functions) as before — only the tree root is replaced. -/
theorem simulation_preserves_state {σ α : Type} [DecidableEq α]
    (do_move : σ → α → σ) (fuel : ℕ) :
    ∀ (n : ℕ) (L : ℤ) (m m' : MCTS σ α),
      m.simulation do_move fuel n L = some m' →
      m'.state = m.state ∧ m'.value_network = m.value_network ∧
        m'.policy_network = m.policy_network ∧ m'.rollout_policy = m.rollout_policy := by
  intro n
  induction n with
  | zero =>
    intro L m m' h
    rw [MCTS.simulation, Option.some.injEq] at h
    subst h
    exact ⟨rfl, rfl, rfl, rfl⟩
  | succ n ih =>
    intro L m m' h
    rw [MCTS.simulation] at h
    cases h1 : m.DFS_in_tree_phase do_move fuel L with
    | none => rw [h1] at h; simp at h
    | some z =>
      obtain ⟨root1, s1, path⟩ := z
      simp only [h1] at h
      cases h2 : m.value_evaluation root1 s1 path with
      | none => rw [h2] at h; simp at h
      | some root2 =>
        simp only [h2] at h
        cases h3 : m.rollout_evaluation root2 s1 path with
        | none => rw [h3] at h; simp at h
        | some root3 =>
          simp only [h3] at h
          exact ih L (m.setRoot root3) m' h

/-- Witness for C7: one full simulation on a concrete engine succeeds
and leaves the stored state unchanged. -/
theorem simulation_preserves_state_witness :
    ∃ m', freshEngine.simulation unitMove 2 1 1 = some m' ∧ m'.state = freshEngine.state := by
  have h : (freshEngine.simulation unitMove 2 1 1).isSome := by
    simp [MCTS.simulation, MCTS.DFS_in_tree_phase, MCTS.value_evaluation,
      MCTS.rollout_evaluation, MCTS.setRoot, freshEngine, unitPolicy, unitMove, inTreeLoop,
      TreeNode.isLeaf, TreeNode.expandChildren, TreeNode.updateU_value, TreeNode.updateU_go,
      TreeNode.setUValue, TreeNode.selection, TreeNode.argLoop, TreeNode.updateVisits,
      TreeNode.setU, TreeNode.setQ, TreeNode.setChildren, TreeNode.new, dictInsert,
      replaceChild, findChild, THRESHOLD, lt_self_iff_false, modifyAtPath, backup,
      TreeNode.updateQ_value, TreeNode.update_value_rewards, TreeNode.update_rollout_rewards,
      TreeNode.backupQ_value, LAMBDA]
  obtain ⟨m', hm⟩ := Option.isSome_iff_exists.mp h
  exact ⟨m', hm, (simulation_preserves_state unitMove 2 1 1 freshEngine m' hm).1⟩

/-- **C2.** The adaptive depth rule of the in-tree loop.  (a) When the
just-visited node's count never exceeds `THRESHOLD` — as on a descent
through freshly created nodes, each visited for the first time — the
loop terminates exactly when the budget reaches zero, visiting exactly
`L` nodes.  (b) When the budget reaches zero on a node whose visit count
is strictly greater than `THRESHOLD = 50`, the budget is increased by
exactly 2 before the termination re-check: on `seedRoot`, whose single
child has 50 prior visits (51 > 50 after the visit), a budget of 1
yields exactly `1 + 2 = 3` visited nodes. -/
theorem DFS_adaptive_depth_extension :
    (∀ (σ α : Type) [DecidableEq α] (do_move : σ → α → σ)
      (pol : σ → List (α × ℚ)), (∀ s, pol s ≠ []) →
      ∀ (fuel : ℕ) (L : ℤ) (t : TreeNode α) (s : σ),
        0 ≤ L → L ≤ (fuel : ℤ) → t.children = [] →
        ∃ t' s' path, inTreeLoop do_move pol fuel L t s = some (t', s', path) ∧
          (path.length : ℤ) = L) ∧
    ((seedEngine.DFS_in_tree_phase unitMove 5 1).map (fun z => z.2.2.length) = some 3) := by
  constructor
  · intro σ α _inst do_move pol hpol fuel L t s h0 hf hc
    obtain ⟨t', s', path, hloop, hlen, _, _⟩ :=
      inTreeLoop_fresh do_move pol hpol fuel L t s h0 hf hc
    exact ⟨t', s', path, hloop, hlen⟩
  · simp [MCTS.DFS_in_tree_phase, seedEngine, seedRoot, unitPolicy, unitMove, inTreeLoop,
      TreeNode.isLeaf, TreeNode.expandChildren, TreeNode.updateU_value, TreeNode.updateU_go,
      TreeNode.setUValue, TreeNode.selection, TreeNode.argLoop, TreeNode.updateVisits,
      TreeNode.setU, TreeNode.setChildren, TreeNode.new, dictInsert, replaceChild, findChild,
      THRESHOLD, lt_self_iff_false]

/-- Witness for C2(a): a fresh chain with budget 2 visits exactly 2
nodes. -/
theorem DFS_adaptive_depth_extension_witness :
    ∃ t' s' path, inTreeLoop unitMove unitPolicy 2 2 (TreeNode.new : TreeNode ℕ) () =
      some (t', s', path) ∧ (path.length : ℤ) = 2 :=
  DFS_adaptive_depth_extension.1 Unit ℕ unitMove unitPolicy
    (fun s => by simp [unitPolicy]) 2 2 TreeNode.new () (by norm_num) (by norm_num) rfl

/-- **C5.** If the value function constantly returns `1/2` and the
rollout function constantly returns `1`, then after one full simulation
(in-tree phase, then value evaluation, then rollout evaluation) on a
fresh tree, the most-recently-visited leaf node has
`Q_value = (1 − 0.5)·(0.5/1) + 0.5·(1/1) = 0.75`. -/
theorem one_simulation_leaf_Q {σ α : Type} [DecidableEq α]
    (do_move : σ → α → σ) (pol : σ → List (α × ℚ)) (v r : σ → ℚ)
    (hpol : ∀ s, pol s ≠ []) (hv : ∀ s, v s = 1 / 2) (hr : ∀ s, r s = 1)
    (s0 : σ) (fuel : ℕ) (L : ℤ) (hL : 1 ≤ L) (hf : L ≤ (fuel : ℤ)) :
    ∃ root1 s1 path root2 root3 leaf,
      (MCTS.mk s0 TreeNode.new v pol r).DFS_in_tree_phase do_move fuel L =
        some (root1, s1, path) ∧
      (MCTS.mk s0 TreeNode.new v pol r).value_evaluation root1 s1 path = some root2 ∧
      (MCTS.mk s0 TreeNode.new v pol r).rollout_evaluation root2 s1 path = some root3 ∧
      getAtPath root3 path = some leaf ∧ leaf.Q_value = 3 / 4 := by
  obtain ⟨root1, s1, path, hloop, hlen, _, hleafprop⟩ :=
    inTreeLoop_fresh do_move pol hpol fuel L TreeNode.new s0 (by omega) hf rfl
  obtain ⟨leaf0, hg0, hc0, hn0, hv0, hr0⟩ := hleafprop hL
  obtain ⟨a, rest, rfl⟩ : ∃ a rest, path = a :: rest := by
    cases path with
    | nil =>
      exfalso
      simp only [List.length_nil, Nat.cast_zero] at hlen
      omega
    | cons a rest => exact ⟨a, rest, rfl⟩
  obtain ⟨r2, hm2, hg2⟩ := modifyAtPath_get
    (fun node => node.update_value_rewards (v s1)) (a :: rest) root1 leaf0 hg0
  have hq1 := updateQ_value_of_leaf (leaf0.update_value_rewards (v s1))
    (by simp [hc0]) (by simp [hn0])
  obtain ⟨r3, hb3, hg3⟩ :=
    backup_get rest a r2 (leaf0.update_value_rewards (v s1)) _ hg2 hq1
  have hval : (MCTS.mk s0 TreeNode.new v pol r).value_evaluation root1 s1 (a :: rest) =
      some r3 := by
    simp only [MCTS.value_evaluation, hm2, hb3]
  generalize hgen : (1 - LAMBDA) *
      ((leaf0.update_value_rewards (v s1)).total_value_rewards /
        ((leaf0.update_value_rewards (v s1)).nVisits : ℚ)) +
      LAMBDA * ((leaf0.update_value_rewards (v s1)).total_rollout_rewards /
        ((leaf0.update_value_rewards (v s1)).nVisits : ℚ)) = q1 at hg3
  obtain ⟨r4, hm4, hg4⟩ := modifyAtPath_get
    (fun node => node.update_rollout_rewards (r s1)) (a :: rest) r3 _ hg3
  have hq2 := updateQ_value_of_leaf
    (((leaf0.update_value_rewards (v s1)).setQ q1).update_rollout_rewards (r s1))
    (by simp [hc0]) (by simp [hn0])
  obtain ⟨r5, hb5, hg5⟩ := backup_get rest a r4
    (((leaf0.update_value_rewards (v s1)).setQ q1).update_rollout_rewards (r s1)) _ hg4 hq2
  have hroll : (MCTS.mk s0 TreeNode.new v pol r).rollout_evaluation r3 s1 (a :: rest) =
      some r5 := by
    simp only [MCTS.rollout_evaluation, hm4, hb5]
  refine ⟨root1, s1, a :: rest, r3, r5, _, ?_, hval, hroll, hg5, ?_⟩
  · simp only [MCTS.DFS_in_tree_phase]
    exact hloop
  · simp only [TreeNode.Q_value_setQ, TreeNode.total_value_rewards_update_rollout_rewards,
      TreeNode.total_value_rewards_setQ, TreeNode.total_value_rewards_update_value_rewards,
      TreeNode.total_rollout_rewards_update_rollout_rewards,
      TreeNode.total_rollout_rewards_setQ,
      TreeNode.total_rollout_rewards_update_value_rewards,
      TreeNode.nVisits_update_rollout_rewards, TreeNode.nVisits_setQ,
      TreeNode.nVisits_update_value_rewards, hn0, hv0, hr0, hv s1, hr s1, LAMBDA]
    norm_num

/-- Witness for C5 on the trivial one-action game. -/
theorem one_simulation_leaf_Q_witness :
    ∃ root1 s1 path root2 root3 leaf,
      (MCTS.mk () TreeNode.new (fun _ => (1:ℚ) / 2) unitPolicy (fun _ => (1:ℚ)) :
        MCTS Unit ℕ).DFS_in_tree_phase unitMove 1 1 = some (root1, s1, path) ∧
      (MCTS.mk () TreeNode.new (fun _ => (1:ℚ) / 2) unitPolicy
        (fun _ => (1:ℚ))).value_evaluation root1 s1 path = some root2 ∧
      (MCTS.mk () TreeNode.new (fun _ => (1:ℚ) / 2) unitPolicy
        (fun _ => (1:ℚ))).rollout_evaluation root2 s1 path = some root3 ∧
      getAtPath root3 path = some leaf ∧ leaf.Q_value = 3 / 4 :=
  one_simulation_leaf_Q unitMove unitPolicy (fun _ => (1:ℚ) / 2) (fun _ => (1:ℚ))
    (fun s => by simp [unitPolicy]) (fun s => rfl) (fun s => rfl) () 1 1
    (by norm_num) (by norm_num)

/-- Witness for C10 at budget `0` on a concrete engine. -/
theorem DFS_nonpositive_budget_witness :
    (freshEngine.DFS_in_tree_phase unitMove 3 0 =
      some (freshEngine.root, freshEngine.state, [])) ∧
    freshEngine.simulation unitMove 3 1 0 = none := by
  obtain ⟨h1, _, h3⟩ := @DFS_nonpositive_budget Unit ℕ _ unitMove 3 0 le_rfl
  exact ⟨h1 freshEngine, h3 freshEngine 1 le_rfl⟩

end AlphaGo
